import Mathlib

/-!
Verification development for the NINJA-IDE editor module
(`ninja_ide/gui/editor/editor.py`).

The Python code is shallowly embedded: document text and editor lines are
`List Char`, character offsets are `Nat`, and each operation of the source
becomes a total executable Lean function.  Qt / PyQt primitives (text
cursors, blocks, rendering) are out of scope per the specification; their
observable effect on text and positions is made explicit in the embeddings.
-/

namespace NinjaEditor

/-!
## Python string primitives (ASCII model)

The editor manipulates Python `str` values.  We model the ASCII fragment:
`str.lower`, `str.lstrip` / `str.strip` (whitespace as recognised by
Python's `str.isspace` for ASCII), and `re.escape` (Python >= 3.7 escapes
exactly the characters of its `_special_chars_map`).
-/

/-- ASCII whitespace as stripped by Python `str.lstrip()` / `str.strip()`. -/
def isPySpace (c : Char) : Bool :=
  c == ' ' || c == '\t' || c == '\n' || c == '\r' || c == '\x0b' || c == '\x0c'

/-- Python `str.lstrip()`. -/
def lstrip (s : List Char) : List Char := s.dropWhile isPySpace

/-- Python `str.strip()` (strip whitespace from both ends). -/
def pyStrip (s : List Char) : List Char :=
  ((lstrip s).reverse.dropWhile isPySpace).reverse

/-- Python `str.lower()` on an ASCII character. -/
def pyLower (c : Char) : Char :=
  if 'A' ≤ c ∧ c ≤ 'Z' then Char.ofNat (c.toNat + 32) else c

/-- The characters escaped by Python `re.escape` (CPython's
`_special_chars_map`, Python >= 3.7). -/
def isReSpecial (c : Char) : Bool :=
  c == '(' || c == ')' || c == '[' || c == ']' || c == '\x7b' || c == '\x7d' ||
  c == '?' || c == '*' || c == '+' || c == '-' || c == '|' || c == '^' ||
  c == '$' || c == '\\' || c == '.' || c == '&' || c == '~' || c == '#' ||
  c == ' ' || c == '\t' || c == '\n' || c == '\r' || c == '\x0b' || c == '\x0c'

/-- Python `re.escape`: prepend a backslash to every special character. -/
def pyEscape : List Char → List Char
  | [] => []
  | c :: rest => if isReSpecial c then '\\' :: c :: pyEscape rest else c :: pyEscape rest

/-- `MatchesAt text lit j` holds when the literal string `lit` occurs in
`text` starting at offset `j`. -/
def MatchesAt (text lit : List Char) (j : Nat) : Prop :=
  lit = (text.drop j).take lit.length

instance (text lit : List Char) (j : Nat) : Decidable (MatchesAt text lit j) :=
  inferInstanceAs (Decidable (lit = (text.drop j).take lit.length))

/-- A word character for the regex `\b` assertion (`[a-zA-Z0-9_]`;
the documents under verification are ASCII). -/
def isWordChar (c : Char) : Bool := c.isAlpha || c.isDigit || c == '_'

/-- Whether the character at offset `k` of `text` is a word character
(out-of-range offsets count as non-word). -/
def wordAt (text : List Char) (k : Nat) : Bool :=
  match text.drop k with
  | [] => false
  | c :: _ => isWordChar c

/-- The regex word-boundary assertion `\b` at offset `p` of `text`. -/
def IsBoundary (text : List Char) (p : Nat) : Prop :=
  (if p = 0 then false else wordAt text (p - 1)) ≠ wordAt text p

instance (text : List Char) (p : Nat) : Decidable (IsBoundary text p) :=
  inferInstanceAs (Decidable (_ ≠ _))

/-!
## `re.finditer` scanning semantics

The only patterns the editor compiles are `re.escape(s)` (which matches the
literal string `s`) and `\b re.escape(s) \b` (the literal `s` bounded by
word boundaries).  `finditer` yields non-overlapping matches scanning left
to right: from scan position `i` it finds the *least* start `j ≥ i` where
the pattern matches, yields the span, and resumes at the match end
(advancing one position after a zero-width match).  We embed that scan
generically over a decidable start-position predicate `P`, with explicit
fuel for termination.
-/

/-- Least `j` with `i ≤ j ≤ n` satisfying `P`, found by linear scan. -/
def firstHitFrom (n : Nat) (P : Nat → Prop) [DecidablePred P] : Nat → Nat → Option Nat
  | 0, _ => none
  | fuel + 1, i =>
    if i ≤ n then
      if P i then some i else firstHitFrom n P fuel (i + 1)
    else none

/-- The `finditer` scan: repeatedly take the earliest hit at or after the
scan position and emit the span `(s, s + len)`; resume at the match end,
or one past it for zero-width matches. -/
def scanHits (n len : Nat) (P : Nat → Prop) [DecidablePred P] : Nat → Nat → List (Nat × Nat)
  | 0, _ => []
  | fuel + 1, i =>
    match firstHitFrom n P (n + 1) i with
    | none => []
    | some s => (s, s + len) :: scanHits n len P fuel (if len = 0 then s + 1 else s + len)

/-- All spans of `re.finditer(re.escape(lit), text)`: non-overlapping
leftmost occurrences of the literal `lit`. -/
def litMatches (text lit : List Char) : List (Nat × Nat) :=
  scanHits text.length lit.length (MatchesAt text lit) (text.length + 1) 0

/-- All spans of `re.finditer(r"\b" + re.escape(lit) + r"\b", text)`:
occurrences of the literal `lit` bounded by word boundaries. -/
def wordMatches (text lit : List Char) : List (Nat × Nat) :=
  scanHits text.length lit.length
    (fun j => MatchesAt text lit j ∧ IsBoundary text j ∧ IsBoundary text (j + lit.length))
    (text.length + 1) 0

/-!
## `NEditor._get_find_index_results`

Embedding of the find engine.  The Python code builds
`expr = re.escape(expr)` and, when `wo` (whole word) is set,
`expr = r"\b" + re.escape(expr) + r"\b"` — note the *second* `re.escape`
applied to the already-escaped expression: the whole-word pattern therefore
matches the literal `re.escape(query)`, not the query itself.  The
`try/except sre_constants.error` guard is unreachable for these escaped
patterns and is dropped.  `self.text` (whole document) and the cursor
offset `self.textCursor().position()` are parameters.
-/

def get_find_index_results (docText expr : List Char) (cs wo : Bool) (cursorPos : Nat) :
    Nat × List (Nat × Nat) :=
  let text := if cs then docText else docText.map pyLower
  let e1 := if cs then expr else expr.map pyLower
  let lit := if wo then pyEscape e1 else e1
  let ms := if wo then wordMatches text lit else litMatches text lit
  let currentIndex :=
    if 0 < ms.length then
      (if wo then wordMatches (text.take cursorPos) lit
       else litMatches (text.take cursorPos) lit).length
    else 0
  (currentIndex, ms)

/-!
## Smart backspace and Home key
-/

/-- Modelled from the spec: `base_editor.line_indent` (the helper is declared in
`base_editor`, outside the sources under verification).  The spec describes it as
the first non-whitespace column of the line, i.e. Python's
`len(text) - len(text.lstrip())`. -/
def lineIndent (line : List Char) : Nat := line.length - (lstrip line).length

/-- Python `str.endswith(suffix)`: the suffix equals the final
`len(suffix)` characters. -/
def EndsWith (s suf : List Char) : Prop := suf = s.drop (s.length - suf.length)

instance (s suf : List Char) : Decidable (EndsWith s suf) :=
  inferInstanceAs (Decidable (suf = s.drop (s.length - suf.length)))

/-- Embedding of `NEditor.__smart_backspace`.  Inputs are the current line's
text, the cursor column (`cursor.positionInBlock()`), the configured indent
string (`self._indenter.text()`, assumed non-empty: Python would raise
`ZeroDivisionError` on an empty indent string), and whether a selection is
active.  Returns the edited line when the smart path is taken (`accepted`),
`none` when the key falls through to the default single-character deletion.
`text_before_cursor` is the block text up to the cursor (`line.take col`), and
the deleted range `[col - to_remove, col)` lies inside the leading whitespace. -/
def smart_backspace (line : List Char) (col : Nat) (indentation : List Char)
    (hasSelection : Bool) : Option (List Char) :=
  let textBefore := line.take col
  let spaceAtStartLen := line.length - (lstrip line).length
  if EndsWith textBefore indentation ∧ spaceAtStartLen = col ∧ hasSelection = false then
    let r := textBefore.length % indentation.length
    let toRemove := if r = 0 then indentation.length else r
    some (line.take (col - toRemove) ++ line.drop col)
  else none

/-- Embedding of `NEditor.__manage_key_home`: given the line's text and the
cursor column, returns the new cursor column.  The shift modifier only changes
whether the move keeps the selection anchor and does not affect the resulting
position.  Note the fall-through: when `0 < col < indent` no branch of the
source applies and the cursor is left where it was. -/
def manage_key_home (line : List Char) (col : Nat) : Nat :=
  let indent := lineIndent line
  if col = indent then 0
  else if col = 0 then indent
  else if indent < col then indent
  else col

/-!
## `NEditor.comment_or_uncomment`

The operation works per line over the block range of the selection; we embed
it as a function on the list of selected lines.  `card` is the language's
comment marker (`settings.SYNTAX[key]["comment"][0]`).  The scan loop
accumulates the minimum indent (initialised to `sys.maxsize`), a `comment`
flag overwritten by every non-blank line, the two counters, and the shared
`card_lenght` variable (an `Int`: the source decrements it once per
trailing-space-variant line, with no lower bound).  The apply loop edits each
non-blank line at column `min_indent`; a removal count that is not positive
moves the Qt cursor nowhere, hence `Int.toNat`.  The embedding edits within
the line (for removal ranges that stay inside the line, which is the case in
every scenario proved below).
-/

/-- `sys.maxsize` of a 64-bit CPython build. -/
def sysMaxsize : Nat := 2 ^ 63 - 1

/-- Python `str.startswith(pre)`. -/
def StartsWith (s pre : List Char) : Prop := pre = s.take pre.length

instance (s pre : List Char) : Decidable (StartsWith s pre) :=
  inferInstanceAs (Decidable (pre = s.take pre.length))

/-- State of the first (scanning) loop of `comment_or_uncomment`. -/
structure ScanState where
  minIndent : Nat
  comment : Bool
  linesCommented : Nat
  linesWithout : Nat
  cardLen : Int

/-- One iteration of the scanning loop: skip blank lines, fold the minimum
indent, classify the line (exact marker / stripped-marker variant / plain),
update the flag, the counters and the shared `card_lenght`. -/
def scanStep (card : List Char) (st : ScanState) (line : List Char) : ScanState :=
  if lstrip line = [] then st
  else
    let m := min (lineIndent line) st.minIndent
    if StartsWith (lstrip line) card then
      ⟨m, false, st.linesCommented + 1, st.linesWithout, st.cardLen⟩
    else if StartsWith (lstrip line) (pyStrip card) then
      ⟨m, false, st.linesCommented + 1, st.linesWithout, st.cardLen - 1⟩
    else
      ⟨m, true, st.linesCommented, st.linesWithout + 1, st.cardLen⟩

/-- The whole scanning loop. -/
def scanLines (card : List Char) (lines : List (List Char)) : ScanState :=
  lines.foldl (scanStep card) ⟨sysMaxsize, true, 0, 0, (card.length : Int)⟩

/-- The commenting decision after the scan: `if lines_commented > 0 and
lines_commented != total_lines: comment = True`; otherwise the flag left by
the last non-blank line (initially `True`) stands.  `true` means comment,
`false` means uncomment. -/
def toggleDecision (card : List Char) (lines : List (List Char)) : Bool :=
  if 0 < (scanLines card lines).linesCommented ∧
      (scanLines card lines).linesCommented ≠
        (scanLines card lines).linesCommented + (scanLines card lines).linesWithout then
    true
  else (scanLines card lines).comment

/-- One iteration of the apply loop: blank lines are untouched; otherwise the
marker is inserted at column `m = min_indent`, or `card_lenght` characters are
removed starting at column `m`. -/
def applyToggleLine (card : List Char) (m : Nat) (doC : Bool) (cl : Int)
    (line : List Char) : List Char :=
  if lstrip line = [] then line
  else if doC then line.take m ++ card ++ line.drop m
  else line.take m ++ (line.drop m).drop cl.toNat

/-- Embedding of `NEditor.comment_or_uncomment` on the selected block's lines. -/
def comment_or_uncomment (card : List Char) (lines : List (List Char)) : List (List Char) :=
  lines.map (applyToggleLine card (scanLines card lines).minIndent
    (toggleDecision card lines) (scanLines card lines).cardLen)

/-- A line is non-blank when stripping its whitespace leaves something. -/
def NonBlank (line : List Char) : Prop := lstrip line ≠ []

instance (line : List Char) : Decidable (NonBlank line) :=
  inferInstanceAs (Decidable (_ ≠ _))

/-- A line counts as commented when, after its leading whitespace, it starts
with the marker or with the stripped variant of the marker. -/
def CommentedLine (card line : List Char) : Prop :=
  StartsWith (lstrip line) card ∨ StartsWith (lstrip line) (pyStrip card)

instance (card line : List Char) : Decidable (CommentedLine card line) :=
  inferInstanceAs (Decidable (_ ∨ _))

/-- A line detected through the stripped-variant branch of the scan (the one
that decrements `card_lenght`). -/
def VariantLine (card line : List Char) : Prop :=
  NonBlank line ∧ ¬ StartsWith (lstrip line) card ∧ StartsWith (lstrip line) (pyStrip card)

instance (card line : List Char) : Decidable (VariantLine card line) :=
  inferInstanceAs (Decidable (_ ∧ _))

/-!
## `ExtraSelectionManager`

Python lists are mutable heap objects.  `ExtraSelectionManager.add` stores the
very list object it is given (wrapping a non-list argument in a fresh
singleton list), `NEditor.link` passes the original's stored list objects to
the clone's `add`, and `remove` clears the stored list *in place*
(`self.__selections[kind].clear()`), so every alias of that list observes the
clearing.  We make the aliasing explicit: a `Heap` of list cells addressed by
allocation index, and a manager holding an `OrderedDict` from category name to
cell reference (assignment to an existing key keeps its position; a new key is
appended).  Callers such as `highlight_found_results` build a fresh list for
each `add`, which the embedding models by allocating a new cell.
-/

structure Heap (α : Type) where
  cells : List (List α)

/-- Current contents of the list object at reference `r`. -/
def Heap.read {α : Type} (h : Heap α) (r : Nat) : List α :=
  (h.cells[r]?).getD []

/-- In-place replacement of the contents of the list object at `r`. -/
def Heap.write {α : Type} (h : Heap α) (r : Nat) (v : List α) : Heap α :=
  ⟨h.cells.set r v⟩

/-- `OrderedDict` lookup. -/
def odLookup : List (String × Nat) → String → Option Nat
  | [], _ => none
  | p :: rest, k => if p.1 = k then some p.2 else odLookup rest k

/-- `OrderedDict` assignment: an existing key keeps its position, a new key is
appended at the end. -/
def odSet : List (String × Nat) → String → Nat → List (String × Nat)
  | [], k, r => [(k, r)]
  | p :: rest, k, r => if p.1 = k then (k, r) :: rest else p :: odSet rest k r

/-- The manager's state: categories bound to list references, in insertion
order (`self.__selections`, an `OrderedDict`). -/
structure ESM where
  sels : List (String × Nat)

/-- `add(kind, selections)` with a freshly built list: allocate the list
object at the end of the heap and bind the category to it (full replacement of
whatever the category held). -/
def ESM.add {α : Type} (h : Heap α) (m : ESM) (k : String) (v : List α) :
    Heap α × ESM :=
  (⟨h.cells ++ [v]⟩, ⟨odSet m.sels k h.cells.length⟩)

/-- `add(kind, selection)` with a non-list argument: the code wraps it as
`[selection]` before storing. -/
def ESM.addSingle {α : Type} (h : Heap α) (m : ESM) (k : String) (s : α) :
    Heap α × ESM :=
  ESM.add h m k [s]

/-- `get(kind)`: contents of the stored list, `[]` for an absent category. -/
def ESM.get {α : Type} (h : Heap α) (m : ESM) (k : String) : List α :=
  match odLookup m.sels k with
  | none => []
  | some r => h.read r

/-- `remove(kind)`: when the category exists, its stored list object is
cleared in place; the category keeps its (now empty) list. -/
def ESM.remove {α : Type} (h : Heap α) (m : ESM) (k : String) : Heap α :=
  match odLookup m.sels k with
  | none => h
  | some r => h.write r []

/-- `NEditor.link`: `for kind, selections in items(): clone.add(kind,
selections)` — each category of the original is bound in the clone to the
*same* list object (the argument is already a list, so `add` stores the
reference without copying). -/
def ESM.link (orig clone : ESM) : ESM :=
  ⟨orig.sels.foldl (fun acc p => odSet acc p.1 p.2) clone.sels⟩

/-- Every stored reference points at an allocated cell. -/
def ESM.WFRefs {α : Type} (h : Heap α) (m : ESM) : Prop :=
  ∀ p ∈ m.sels, p.2 < h.cells.length

/-- Category names are unique (true of any Python dict). -/
def ESM.KeysNodup (m : ESM) : Prop := (m.sels.map Prod.fst).Nodup

instance {α : Type} (h : Heap α) (m : ESM) : Decidable (ESM.WFRefs h m) :=
  inferInstanceAs (Decidable (∀ p ∈ m.sels, p.2 < h.cells.length))

instance (m : ESM) : Decidable (ESM.KeysNodup m) :=
  inferInstanceAs (Decidable (List.Nodup _))

/-!
## Properties of the scan
-/

theorem firstHitFrom_some {n : Nat} {P : Nat → Prop} [DecidablePred P] :
    ∀ {fuel i s : Nat}, firstHitFrom n P fuel i = some s →
      i ≤ s ∧ s ≤ n ∧ P s ∧ ∀ j, i ≤ j → j < s → ¬ P j := by
  intro fuel
  induction fuel with
  | zero => intro i s h; simp [firstHitFrom] at h
  | succ f ih =>
    intro i s h
    simp only [firstHitFrom] at h
    by_cases hin : i ≤ n
    · rw [if_pos hin] at h
      by_cases hP : P i
      · rw [if_pos hP] at h
        injection h with h'
        subst h'
        exact ⟨Nat.le_refl _, hin, hP, fun j hj1 hj2 => ((by omega : False)).elim⟩
      · rw [if_neg hP] at h
        obtain ⟨h1, h2, h3, h4⟩ := ih h
        refine ⟨by omega, h2, h3, ?_⟩
        intro j hj1 hj2
        rcases Nat.eq_or_lt_of_le hj1 with hji | hji
        · subst hji; exact hP
        · exact h4 j hji hj2
    · rw [if_neg hin] at h
      exact absurd h (by simp)

theorem firstHitFrom_none {n : Nat} {P : Nat → Prop} [DecidablePred P] :
    ∀ {fuel i : Nat}, n + 1 - i ≤ fuel → firstHitFrom n P fuel i = none →
      ∀ j, i ≤ j → j ≤ n → ¬ P j := by
  intro fuel
  induction fuel with
  | zero => intro i hle _ j hj1 hj2; omega
  | succ f ih =>
    intro i hle h j hj1 hj2
    simp only [firstHitFrom] at h
    by_cases hin : i ≤ n
    · rw [if_pos hin] at h
      by_cases hP : P i
      · rw [if_pos hP] at h; exact absurd h (by simp)
      · rw [if_neg hP] at h
        rcases Nat.eq_or_lt_of_le hj1 with hji | hji
        · subst hji; exact hP
        · exact ih (by omega) h j hji hj2
    · omega

theorem firstHitFrom_eq_some {n : Nat} {P : Nat → Prop} [DecidablePred P]
    {fuel i s : Nat} (hfuel : n + 1 - i ≤ fuel) (his : i ≤ s) (hsn : s ≤ n) (hPs : P s)
    (hmin : ∀ j, i ≤ j → j < s → ¬ P j) :
    firstHitFrom n P fuel i = some s := by
  cases hopt : firstHitFrom n P fuel i with
  | none => exact absurd hPs (firstHitFrom_none hfuel hopt s his hsn)
  | some t =>
    obtain ⟨h1, h2, h3, h4⟩ := firstHitFrom_some hopt
    have hts : t = s := by
      rcases Nat.lt_trichotomy t s with h | h | h
      · exact absurd h3 (hmin t h1 h)
      · exact h
      · exact absurd hPs (h4 s his h)
    rw [hts]

theorem scanHits_of_gt {n len : Nat} {P : Nat → Prop} [DecidablePred P]
    {fuel i : Nat} (h : n < i) : scanHits n len P fuel i = [] := by
  cases fuel with
  | zero => rfl
  | succ f =>
    have hnone : firstHitFrom n P (n + 1) i = none := by
      cases hn : firstHitFrom n P (n + 1) i with
      | none => rfl
      | some s =>
        obtain ⟨h1, h2, _, _⟩ := firstHitFrom_some hn
        omega
    simp [scanHits, hnone]

theorem scanHits_mem {n len : Nat} {P : Nat → Prop} [DecidablePred P] :
    ∀ {fuel i : Nat} {x : Nat × Nat}, x ∈ scanHits n len P fuel i →
      i ≤ x.1 ∧ x.2 = x.1 + len := by
  intro fuel
  induction fuel with
  | zero => intro i x h; simp [scanHits] at h
  | succ f ih =>
    intro i x h
    simp only [scanHits] at h
    cases hf : firstHitFrom n P (n + 1) i with
    | none => rw [hf] at h; simp at h
    | some s =>
      rw [hf] at h
      obtain ⟨h1, _, _, _⟩ := firstHitFrom_some hf
      rcases List.mem_cons.mp h with hx | h'
      · subst hx; exact ⟨h1, rfl⟩
      · obtain ⟨ha, hb⟩ := ih h'
        have hle : i ≤ (if len = 0 then s + 1 else s + len) := by
          split <;> omega
        exact ⟨Nat.le_trans hle ha, hb⟩

theorem MatchesAt_length_le {text lit : List Char} {j : Nat} (hlen : 0 < lit.length)
    (h : MatchesAt text lit j) : j + lit.length ≤ text.length := by
  unfold MatchesAt at h
  have hl := congrArg List.length h
  simp only [List.length_take, List.length_drop] at hl
  omega

theorem MatchesAt_take {text lit : List Char} {p j : Nat} (hlen : 0 < lit.length) :
    MatchesAt (text.take p) lit j ↔ MatchesAt text lit j ∧ j + lit.length ≤ p := by
  unfold MatchesAt
  rw [List.drop_take, List.take_take]
  constructor
  · intro h
    have hl := congrArg List.length h
    simp only [List.length_take, List.length_drop] at hl
    have hjp : j + lit.length ≤ p := by omega
    have hm : min lit.length (p - j) = lit.length := by omega
    rw [hm] at h
    exact ⟨h, hjp⟩
  · intro ⟨h, hjp⟩
    have hm : min lit.length (p - j) = lit.length := by omega
    rw [hm]
    exact h

theorem MatchesAt_nil (text : List Char) (j : Nat) : MatchesAt text [] j := by
  simp [MatchesAt]

theorem scanHits_len_zero {n : Nat} {P : Nat → Prop} [DecidablePred P] (hP : ∀ j, P j) :
    ∀ {fuel i : Nat}, n + 1 - i ≤ fuel →
      scanHits n 0 P fuel i = (List.range' i (n + 1 - i)).map (fun j => (j, j)) := by
  intro fuel
  induction fuel with
  | zero =>
    intro i h
    have h0 : n + 1 - i = 0 := by omega
    rw [h0, scanHits_of_gt (by omega)]
    rfl
  | succ f ih =>
    intro i h
    by_cases hni : n < i
    · have h0 : n + 1 - i = 0 := by omega
      rw [h0, scanHits_of_gt hni]
      rfl
    · push_neg at hni
      simp only [scanHits]
      rw [firstHitFrom_eq_some (by omega) (Nat.le_refl i) hni (hP i)
        (fun j hj1 hj2 => ((by omega : False)).elim)]
      dsimp only
      simp only [if_true, Nat.add_zero]
      rw [ih (by omega)]
      have hsplit : n + 1 - i = (n - i) + 1 := by omega
      rw [hsplit, List.range'_succ]
      simp only [List.map_cons, Nat.add_zero]
      have : n + 1 - (i + 1) = n - i := by omega
      rw [this]

theorem litMatches_nil (text : List Char) :
    litMatches text [] = (List.range (text.length + 1)).map (fun j => (j, j)) := by
  unfold litMatches
  simp only [List.length_nil]
  rw [scanHits_len_zero (MatchesAt_nil text) (by omega), List.range_eq_range']
  norm_num

theorem scanHits_take {n n' p len : Nat} {P Q : Nat → Prop} [DecidablePred P] [DecidablePred Q]
    (hlen : 0 < len) (hn' : n' ≤ n)
    (hPb : ∀ j, P j → j + len ≤ n)
    (hQ : ∀ j, Q j ↔ (P j ∧ j + len ≤ p))
    (hup : ∀ j, j + len ≤ p → j + len ≤ n → j ≤ n') :
    ∀ {fuel i fuel' : Nat}, n + 1 - i ≤ fuel → n' + 1 - i ≤ fuel' →
      scanHits n' len Q fuel' i =
        (scanHits n len P fuel i).filter (fun m => decide (m.2 ≤ p)) := by
  intro fuel
  induction fuel with
  | zero =>
    intro i fuel' h1 _
    rw [scanHits_of_gt (by omega : n < i), scanHits_of_gt (by omega : n' < i)]
    rfl
  | succ f ih =>
    intro i fuel' h1 h2
    by_cases hni : n < i
    · rw [scanHits_of_gt hni, scanHits_of_gt (by omega : n' < i)]
      rfl
    · push_neg at hni
      simp only [scanHits]
      cases hf : firstHitFrom n P (n + 1) i with
      | none =>
        have hqnone : firstHitFrom n' Q (n' + 1) i = none := by
          cases hq : firstHitFrom n' Q (n' + 1) i with
          | none => rfl
          | some s =>
            obtain ⟨hq1, hq2, hq3, _⟩ := firstHitFrom_some hq
            obtain ⟨hPs, _⟩ := (hQ s).mp hq3
            exact absurd hPs
              (firstHitFrom_none (by omega) hf s hq1 (Nat.le_trans hq2 hn'))
        cases fuel' with
        | zero => rfl
        | succ f' =>
          simp only [scanHits]
          rw [hqnone]
          rfl
      | some s =>
        obtain ⟨hs1, hs2, hs3, hs4⟩ := firstHitFrom_some hf
        dsimp only
        by_cases hsp : s + len ≤ p
        · have hQs : Q s := (hQ s).mpr ⟨hs3, hsp⟩
          have hsn' : s ≤ n' := hup s hsp (hPb s hs3)
          obtain ⟨f', hf'⟩ : ∃ f', fuel' = f' + 1 := ⟨fuel' - 1, by omega⟩
          subst hf'
          simp only [scanHits]
          rw [firstHitFrom_eq_some (by omega) hs1 hsn' hQs
            (fun j hj1 hj2 hQj => (hs4 j hj1 hj2) ((hQ j).mp hQj).1)]
          dsimp only
          rw [List.filter_cons]
          simp only [decide_eq_true_eq, hsp, if_pos]
          rw [if_neg (by omega : ¬ len = 0)]
          have hrec : scanHits n' len Q f' (s + len) =
              List.filter (fun m => decide (m.2 ≤ p)) (scanHits n len P f (s + len)) :=
            ih (by omega) (by omega)
          rw [hrec]
        · have hnoQ : ∀ j, i ≤ j → ¬ Q j := by
            intro j hj hQj
            obtain ⟨hPj, hjp⟩ := (hQ j).mp hQj
            have hjs : s ≤ j := by
              by_contra hlt
              exact hs4 j hj (by omega) hPj
            omega
          have hqnone : firstHitFrom n' Q (n' + 1) i = none := by
            cases hq : firstHitFrom n' Q (n' + 1) i with
            | none => rfl
            | some t =>
              obtain ⟨ht1, _, ht3, _⟩ := firstHitFrom_some hq
              exact absurd ht3 (hnoQ t ht1)
          have hleft : scanHits n' len Q fuel' i = [] := by
            cases fuel' with
            | zero => rfl
            | succ f' =>
              simp only [scanHits]
              rw [hqnone]
          rw [hleft, List.filter_cons]
          simp only [decide_eq_true_eq, hsp, if_neg, if_false]
          symm
          rw [List.filter_eq_nil_iff]
          intro m hm
          obtain ⟨hm1, hm2⟩ := scanHits_mem hm
          rw [if_neg (by omega : ¬ len = 0)] at hm1
          simp only [decide_eq_true_eq]
          omega

theorem range_pairs_filter (p : Nat) :
    ∀ n : Nat, ((List.range (n + 1)).map (fun j => (j, j))).filter
        (fun m => decide (m.2 ≤ p)) =
      (List.range (min p n + 1)).map (fun j => (j, j)) := by
  intro n
  induction n with
  | zero => simp
  | succ k ih =>
    rw [show List.range (k + 1 + 1) = List.range (k + 1) ++ [k + 1] from
      List.range_succ (k + 1)]
    rw [List.map_append, List.filter_append, ih]
    by_cases hk : k + 1 ≤ p
    · have h1 : min p k = k := by omega
      have h2 : min p (k + 1) = k + 1 := by omega
      rw [h1, h2]
      simp [hk, List.range_succ]
    · have h1 : min p (k + 1) = min p k := by omega
      rw [h1]
      simp [hk]

theorem litMatches_take (text lit : List Char) (p : Nat) :
    litMatches (text.take p) lit =
      (litMatches text lit).filter (fun m => decide (m.2 ≤ p)) := by
  by_cases hlit : lit.length = 0
  · have hnil : lit = [] := List.length_eq_zero.mp hlit
    subst hnil
    rw [litMatches_nil, litMatches_nil, List.length_take, range_pairs_filter]
  · unfold litMatches
    rw [List.length_take]
    exact scanHits_take (by omega) (by omega)
      (fun j h => MatchesAt_length_le (by omega) h)
      (fun j => MatchesAt_take (by omega))
      (fun j h1 h2 => by omega)
      (by omega) (by omega)

/-!
## Claims about the find engine
-/

/-- C1: the claim states that with `whole_word=true` the find operation returns
exactly the literal occurrences of the query bounded by word boundaries.  The code
escapes the query twice on the whole-word path (`expr = re.escape(expr)` followed by
`expr = r"\b" + re.escape(expr) + r"\b"`), so the compiled pattern matches the
literal `re.escape(Q)` instead of `Q`.  At text `"a.b"`, query `"a.b"`,
`case_sensitive=true`, `whole_word=true`, the code finds zero matches, while the
word-boundary-bounded literal occurrences of the query (second conjunct, the
intended single-escape semantics) are exactly the span `(0, 3)`. -/
theorem find_whole_word_double_escape_bug :
    get_find_index_results "a.b".toList "a.b".toList true true 0 = (0, []) ∧
      wordMatches "a.b".toList "a.b".toList = [(0, 3)] := by
  constructor
  · decide
  · decide

/-- C5 counterexample: with an empty query the find operation does not return an
empty result set — on text `"ab"` it returns a zero-width match at every offset and
`current_index = 1`, contradicting the claimed `(0, [])`. -/
theorem find_empty_query_counterexample :
    get_find_index_results "ab".toList [] true false 0 = (1, [(0, 0), (1, 1), (2, 2)]) ∧
      ((1, [(0, 0), (1, 1), (2, 2)]) : Nat × List (Nat × Nat)) ≠ (0, []) := by
  constructor
  · decide
  · decide

/-- C5 (amended): with an empty query and `whole_word=false` the find operation
returns a zero-width match `(i, i)` at every offset `i ≤ length T` — that is,
`length T + 1` matches — and `current_index = min cursor (length T) + 1`, instead
of the empty result set the original claim states. -/
theorem find_empty_query_matches_every_offset (docText : List Char) (cs : Bool) (pos : Nat) :
    get_find_index_results docText [] cs false pos =
      (min pos docText.length + 1,
        (List.range (docText.length + 1)).map (fun j => (j, j))) := by
  unfold get_find_index_results
  cases cs with
  | false =>
    simp [Bool.false_eq_true, litMatches_nil, List.length_take]
  | true =>
    simp [Bool.false_eq_true, litMatches_nil, List.length_take]

/-- C7 counterexample: on text `"abc"`, query `"abc"`, cursor offset 1, the single
match `(0, 3)` starts before the cursor, so the claim predicts `current_index = 1`;
the code counts matches of the pattern inside the truncated prefix `text[:1]` and
returns `current_index = 0`. -/
theorem find_current_index_counterexample :
    (get_find_index_results "abc".toList "abc".toList true false 1).1 = 0 ∧
      ((get_find_index_results "abc".toList "abc".toList true false 1).2.filter
        (fun m => decide (m.1 < 1))).length = 1 := by
  constructor
  · decide
  · decide

/-- C7 (amended): for every text, query and cursor offset (with
`whole_word=false`), `current_index` equals the number of matches whose END offset
is at or before the cursor offset — i.e. the matches that fit entirely inside the
prefix before the cursor.  A match that starts before the cursor but ends beyond
it is not counted. -/
theorem find_current_index_counts_completed (docText q : List Char) (cs : Bool) (pos : Nat) :
    (get_find_index_results docText q cs false pos).1 =
      ((get_find_index_results docText q cs false pos).2.filter
        (fun m => decide (m.2 ≤ pos))).length := by
  unfold get_find_index_results
  simp only [Bool.false_eq_true, if_neg, if_false]
  by_cases hms :
      0 < (litMatches (if cs then docText else docText.map pyLower)
        (if cs then q else q.map pyLower)).length
  · rw [if_pos hms, litMatches_take]
  · rw [if_neg hms]
    have hnil : litMatches (if cs then docText else docText.map pyLower)
        (if cs then q else q.map pyLower) = [] := by
      cases hl : litMatches (if cs then docText else docText.map pyLower)
          (if cs then q else q.map pyLower) with
      | nil => rfl
      | cons a l => rw [hl] at hms; simp at hms
    rw [hnil]
    rfl

theorem lineIndent_le (line : List Char) : lineIndent line ≤ line.length :=
  Nat.sub_le ..

theorem lstrip_length_le (line : List Char) : (lstrip line).length ≤ line.length := by
  unfold lstrip
  induction line with
  | nil => simp
  | cons c rest ih =>
    rw [List.dropWhile_cons]
    split
    · exact Nat.le_trans ih (by simp)
    · exact Nat.le_refl ..

theorem EndsWith_length_le {s suf : List Char} (h : EndsWith s suf) :
    suf.length ≤ s.length := by
  unfold EndsWith at h
  have := congrArg List.length h
  simp only [List.length_drop] at this
  omega

/-- C3: when the cursor sits at the first non-whitespace column, no selection is
active, the text before the cursor ends with the (non-empty) indent string, smart
backspace removes exactly `col % len(indent)` characters — a full indent unit when
that remainder is zero — deleting the range `[col - toRemove, col)`. -/
theorem smart_backspace_removes_indent_unit (line indentation : List Char) (col : Nat)
    (hind : indentation ≠ [])
    (hcol : col = lineIndent line)
    (hends : EndsWith (line.take col) indentation) :
    smart_backspace line col indentation false =
        some (line.take (col - (if col % indentation.length = 0 then indentation.length
          else col % indentation.length)) ++ line.drop col) ∧
      (line.take (col - (if col % indentation.length = 0 then indentation.length
          else col % indentation.length)) ++ line.drop col).length =
        line.length - (if col % indentation.length = 0 then indentation.length
          else col % indentation.length) := by
  have hcl : col ≤ line.length := by
    rw [hcol]; exact lineIndent_le line
  have htb : (line.take col).length = col := by
    rw [List.length_take]; omega
  have hR0 : 0 < indentation.length := List.length_pos.mpr hind
  have hRle : (if col % indentation.length = 0 then indentation.length
      else col % indentation.length) ≤ col := by
    have hle : indentation.length ≤ (line.take col).length := EndsWith_length_le hends
    rw [htb] at hle
    split
    · exact hle
    · have := Nat.mod_lt col hR0
      omega
  constructor
  · unfold smart_backspace
    rw [if_pos ⟨hends, hcol.symm ▸ rfl, rfl⟩]
    rw [htb]
  · rw [List.length_append, List.length_take, List.length_drop]
    omega

/-- C3 witness: a line of 6 spaces before code under a 4-space unit loses 2
spaces (6 mod 4), leaving 4; a line of 4 spaces loses the full unit, leaving 0. -/
theorem smart_backspace_removes_indent_unit_witness :
    smart_backspace "      x".toList 6 "    ".toList false =
        some "    x".toList ∧
      smart_backspace "    x".toList 4 "    ".toList false = some "x".toList := by
  constructor
  · have h := smart_backspace_removes_indent_unit "      x".toList "    ".toList 6
      (by decide) (by decide) (by decide)
    rw [h.1]
    decide
  · have h := smart_backspace_removes_indent_unit "    x".toList "    ".toList 4
      (by decide) (by decide) (by decide)
    rw [h.1]
    decide

/-- C9 counterexample: on the line `"    x"` (first non-whitespace column 4),
a Home press with the cursor at column 2 — strictly inside the leading
whitespace — leaves the cursor at column 2, while the claim says it moves to
the first non-whitespace column 4. -/
theorem manage_key_home_counterexample :
    manage_key_home "    x".toList 2 = 2 ∧
      lineIndent "    x".toList = 4 ∧ (2 : Nat) ≠ 4 := by
  refine ⟨by decide, by decide, by decide⟩

/-- C9 (amended): Home is a toggle with a dead zone: at the first
non-whitespace column it moves to column 0; at column 0 it moves to the first
non-whitespace column; strictly beyond the first non-whitespace column it moves
to that column; but strictly inside the leading whitespace (`0 < col < indent`)
the cursor does not move. -/
theorem manage_key_home_toggle (line : List Char) (col : Nat) :
    (col = lineIndent line → manage_key_home line col = 0) ∧
      (col = 0 → manage_key_home line col = lineIndent line) ∧
      (lineIndent line < col → manage_key_home line col = lineIndent line) ∧
      (0 < col → col < lineIndent line → manage_key_home line col = col) := by
  unfold manage_key_home
  refine ⟨?_, ?_, ?_, ?_⟩
  · intro h
    rw [if_pos h]
  · intro h
    subst h
    by_cases h0 : lineIndent line = 0
    · rw [if_pos h0.symm, h0]
    · rw [if_neg (fun hc => h0 hc.symm), if_pos rfl]
  · intro h
    rw [if_neg (by omega), if_neg (by omega), if_pos h]
  · intro h1 h2
    rw [if_neg (by omega), if_neg (by omega), if_neg (by omega)]

/-- C9 witness for the amended toggle, on the line `"    x"` (indent 4):
column 4 goes to 0, column 0 goes to 4, column 6 goes to 4, column 2 stays. -/
theorem manage_key_home_toggle_witness :
    manage_key_home "    x".toList 4 = 0 ∧
      manage_key_home "    x".toList 0 = 4 ∧
      manage_key_home "    xyz".toList 6 = 4 ∧
      manage_key_home "    x".toList 2 = 2 := by
  refine ⟨(manage_key_home_toggle "    x".toList 4).1 (by decide), ?_, ?_, ?_⟩
  · have h := (manage_key_home_toggle "    x".toList 0).2.1 rfl
    rw [h]
    decide
  · have h := (manage_key_home_toggle "    xyz".toList 6).2.2.1 (by decide)
    rw [h]
    decide
  · exact (manage_key_home_toggle "    x".toList 2).2.2.2 (by decide) (by decide)

/-!
### Scan-loop invariants
-/

theorem scanStep_blank {card st line} (h : lstrip line = []) :
    scanStep card st line = st := by
  unfold scanStep
  rw [if_pos h]

theorem scan_foldl_blank {card : List Char} :
    ∀ {lines : List (List Char)} {st : ScanState},
      (∀ l ∈ lines, ¬ NonBlank l) →
        lines.foldl (scanStep card) st = st := by
  intro lines
  induction lines with
  | nil => intro st _; rfl
  | cons l rest ih =>
    intro st h
    rw [List.foldl_cons]
    have hl : lstrip l = [] := by
      have := h l (List.mem_cons_self ..)
      unfold NonBlank at this
      simpa using this
    rw [scanStep_blank hl]
    exact ih (fun x hx => h x (List.mem_cons_of_mem _ hx))

theorem scan_foldl_linesCommented {card : List Char} :
    ∀ {lines : List (List Char)} {st : ScanState},
      (lines.foldl (scanStep card) st).linesCommented =
        st.linesCommented +
          lines.countP (fun l => decide (NonBlank l ∧ CommentedLine card l)) := by
  intro lines
  induction lines with
  | nil => intro st; simp
  | cons l rest ih =>
    intro st
    rw [List.foldl_cons, List.countP_cons, ih]
    by_cases hb : lstrip l = []
    · rw [scanStep_blank hb]
      have : ¬ (NonBlank l ∧ CommentedLine card l) := fun h => h.1 hb
      simp [this]
    · unfold scanStep
      rw [if_neg hb]
      by_cases h1 : StartsWith (lstrip l) card
      · rw [if_pos h1]
        have : NonBlank l ∧ CommentedLine card l := ⟨hb, Or.inl h1⟩
        simp [this]
        omega
      · rw [if_neg h1]
        by_cases h2 : StartsWith (lstrip l) (pyStrip card)
        · rw [if_pos h2]
          have : NonBlank l ∧ CommentedLine card l := ⟨hb, Or.inr h2⟩
          simp [this]
          omega
        · rw [if_neg h2]
          have : ¬ (NonBlank l ∧ CommentedLine card l) := by
            intro h
            rcases h.2 with hc | hc
            · exact h1 hc
            · exact h2 hc
          simp [this]

theorem scan_foldl_linesWithout {card : List Char} :
    ∀ {lines : List (List Char)} {st : ScanState},
      (lines.foldl (scanStep card) st).linesWithout =
        st.linesWithout +
          lines.countP (fun l => decide (NonBlank l ∧ ¬ CommentedLine card l)) := by
  intro lines
  induction lines with
  | nil => intro st; simp
  | cons l rest ih =>
    intro st
    rw [List.foldl_cons, List.countP_cons, ih]
    by_cases hb : lstrip l = []
    · rw [scanStep_blank hb]
      have : ¬ (NonBlank l ∧ ¬ CommentedLine card l) := fun h => h.1 hb
      simp [this]
    · unfold scanStep
      rw [if_neg hb]
      by_cases h1 : StartsWith (lstrip l) card
      · rw [if_pos h1]
        have : ¬ (NonBlank l ∧ ¬ CommentedLine card l) := fun h => h.2 (Or.inl h1)
        simp [this]
      · rw [if_neg h1]
        by_cases h2 : StartsWith (lstrip l) (pyStrip card)
        · rw [if_pos h2]
          have : ¬ (NonBlank l ∧ ¬ CommentedLine card l) := fun h => h.2 (Or.inr h2)
          simp [this]
        · rw [if_neg h2]
          have : NonBlank l ∧ ¬ CommentedLine card l := by
            refine ⟨hb, fun hc => ?_⟩
            rcases hc with hc | hc
            · exact h1 hc
            · exact h2 hc
          simp [this]
          omega

theorem scan_foldl_cardLen {card : List Char} :
    ∀ {lines : List (List Char)} {st : ScanState},
      (lines.foldl (scanStep card) st).cardLen =
        st.cardLen - lines.countP (fun l => decide (VariantLine card l)) := by
  intro lines
  induction lines with
  | nil => intro st; simp
  | cons l rest ih =>
    intro st
    rw [List.foldl_cons, List.countP_cons, ih]
    by_cases hb : lstrip l = []
    · rw [scanStep_blank hb]
      have : ¬ VariantLine card l := fun h => h.1 hb
      simp [this]
    · unfold scanStep
      rw [if_neg hb]
      by_cases h1 : StartsWith (lstrip l) card
      · rw [if_pos h1]
        have : ¬ VariantLine card l := fun h => h.2.1 h1
        simp [this]
      · rw [if_neg h1]
        by_cases h2 : StartsWith (lstrip l) (pyStrip card)
        · rw [if_pos h2]
          have : VariantLine card l := ⟨hb, h1, h2⟩
          simp [this]
          ring
        · rw [if_neg h2]
          have : ¬ VariantLine card l := fun h => h2 h.2.2
          simp [this]

theorem scanStep_comment_of_commented {card st line} (hnb : lstrip line ≠ [])
    (hc : CommentedLine card line) : (scanStep card st line).comment = false := by
  unfold scanStep
  rw [if_neg hnb]
  by_cases h1 : StartsWith (lstrip line) card
  · rw [if_pos h1]
  · rw [if_neg h1]
    rcases hc with hc | hc
    · exact absurd hc h1
    · rw [if_pos hc]

theorem scanStep_comment_of_uncommented {card st line} (hnb : lstrip line ≠ [])
    (hc : ¬ CommentedLine card line) : (scanStep card st line).comment = true := by
  unfold scanStep
  rw [if_neg hnb]
  rw [if_neg (fun h => hc (Or.inl h)), if_neg (fun h => hc (Or.inr h))]

theorem scan_foldl_comment_all_commented {card : List Char} :
    ∀ {lines : List (List Char)} {st : ScanState},
      (∀ l ∈ lines, NonBlank l → CommentedLine card l) →
      (∃ l ∈ lines, NonBlank l) →
        (lines.foldl (scanStep card) st).comment = false := by
  intro lines
  induction lines with
  | nil => intro st _ hex; simp at hex
  | cons l rest ih =>
    intro st hall hex
    rw [List.foldl_cons]
    by_cases hb : lstrip l = []
    · rw [scanStep_blank hb]
      have hrest : ∃ x ∈ rest, NonBlank x := by
        rcases hex with ⟨x, hx, hnb⟩
        rcases List.mem_cons.mp hx with hxl | hxr
        · subst hxl; exact absurd hb hnb
        · exact ⟨x, hxr, hnb⟩
      exact ih (fun x hx h => hall x (List.mem_cons_of_mem _ hx) h) hrest
    · have hflag : (scanStep card st l).comment = false :=
        scanStep_comment_of_commented hb (hall l (List.mem_cons_self ..) hb)
      by_cases hrest : ∃ x ∈ rest, NonBlank x
      · exact ih (fun x hx h => hall x (List.mem_cons_of_mem _ hx) h) hrest
      · push_neg at hrest
        rw [scan_foldl_blank hrest]
        exact hflag

theorem scan_foldl_comment_none_commented {card : List Char} :
    ∀ {lines : List (List Char)} {st : ScanState},
      (∀ l ∈ lines, NonBlank l → ¬ CommentedLine card l) → st.comment = true →
        (lines.foldl (scanStep card) st).comment = true := by
  intro lines
  induction lines with
  | nil => intro st _ hst; exact hst
  | cons l rest ih =>
    intro st hall hst
    rw [List.foldl_cons]
    by_cases hb : lstrip l = []
    · rw [scanStep_blank hb]
      exact ih (fun x hx h => hall x (List.mem_cons_of_mem _ hx) h) hst
    · exact ih (fun x hx h => hall x (List.mem_cons_of_mem _ hx) h)
        (scanStep_comment_of_uncommented hb (hall l (List.mem_cons_self ..) hb))

theorem scanStep_minIndent_le {card st line} :
    (scanStep card st line).minIndent ≤ st.minIndent := by
  unfold scanStep
  by_cases hb : lstrip line = []
  · rw [if_pos hb]
  · rw [if_neg hb]
    by_cases h1 : StartsWith (lstrip line) card
    · rw [if_pos h1]; exact Nat.min_le_right ..
    · rw [if_neg h1]
      by_cases h2 : StartsWith (lstrip line) (pyStrip card)
      · rw [if_pos h2]; exact Nat.min_le_right ..
      · rw [if_neg h2]; exact Nat.min_le_right ..

theorem scan_foldl_minIndent_le_init {card : List Char} :
    ∀ {lines : List (List Char)} {st : ScanState},
      (lines.foldl (scanStep card) st).minIndent ≤ st.minIndent := by
  intro lines
  induction lines with
  | nil => intro st; exact Nat.le_refl ..
  | cons l rest ih =>
    intro st
    rw [List.foldl_cons]
    exact Nat.le_trans ih scanStep_minIndent_le

theorem scanStep_minIndent_nonblank {card st line} (hb : lstrip line ≠ []) :
    (scanStep card st line).minIndent = min (lineIndent line) st.minIndent := by
  unfold scanStep
  rw [if_neg hb]
  by_cases h1 : StartsWith (lstrip line) card
  · rw [if_pos h1]
  · rw [if_neg h1]
    by_cases h2 : StartsWith (lstrip line) (pyStrip card)
    · rw [if_pos h2]
    · rw [if_neg h2]

theorem scan_foldl_minIndent_le {card : List Char} :
    ∀ {lines : List (List Char)} {st : ScanState} {l : List Char},
      l ∈ lines → NonBlank l →
        (lines.foldl (scanStep card) st).minIndent ≤ lineIndent l := by
  intro lines
  induction lines with
  | nil => intro st l h; simp at h
  | cons x rest ih =>
    intro st l hmem hnb
    rw [List.foldl_cons]
    rcases List.mem_cons.mp hmem with hxl | hxr
    · subst hxl
      refine Nat.le_trans scan_foldl_minIndent_le_init ?_
      rw [scanStep_minIndent_nonblank hnb]
      exact Nat.min_le_left ..
    · exact ih hxr hnb

theorem scan_foldl_minIndent_const {card : List Char} {m : Nat} :
    ∀ {lines : List (List Char)} {st : ScanState},
      (∀ l ∈ lines, NonBlank l → lineIndent l = m) →
      (∃ l ∈ lines, NonBlank l) → m ≤ st.minIndent →
        (lines.foldl (scanStep card) st).minIndent = m := by
  intro lines
  induction lines with
  | nil => intro st _ hex; simp at hex
  | cons l rest ih =>
    intro st hall hex hle
    rw [List.foldl_cons]
    by_cases hb : lstrip l = []
    · rw [scanStep_blank hb]
      have hrest : ∃ x ∈ rest, NonBlank x := by
        rcases hex with ⟨x, hx, hnb⟩
        rcases List.mem_cons.mp hx with hxl | hxr
        · subst hxl; exact absurd hb hnb
        · exact ⟨x, hxr, hnb⟩
      exact ih (fun x hx h => hall x (List.mem_cons_of_mem _ hx) h) hrest hle
    · have hstep : (scanStep card st l).minIndent = m := by
        rw [scanStep_minIndent_nonblank hb, hall l (List.mem_cons_self ..) hb]
        omega
      by_cases hrest : ∃ x ∈ rest, NonBlank x
      · exact ih (fun x hx h => hall x (List.mem_cons_of_mem _ hx) h) hrest
          (le_of_eq hstep.symm)
      · push_neg at hrest
        rw [scan_foldl_blank hrest]
        exact hstep

theorem scanLines_minIndent_le {card : List Char} {lines : List (List Char)} {l : List Char}
    (hl : l ∈ lines) (hnb : NonBlank l) :
    (scanLines card lines).minIndent ≤ lineIndent l := by
  unfold scanLines
  exact scan_foldl_minIndent_le hl hnb

theorem scanLines_minIndent_le_max (card : List Char) (lines : List (List Char)) :
    (scanLines card lines).minIndent ≤ sysMaxsize := by
  unfold scanLines
  exact scan_foldl_minIndent_le_init

theorem scanLines_minIndent_const {card : List Char} {m : Nat} {lines : List (List Char)}
    (hall : ∀ l ∈ lines, NonBlank l → lineIndent l = m)
    (hex : ∃ l ∈ lines, NonBlank l) (hm : m ≤ sysMaxsize) :
    (scanLines card lines).minIndent = m := by
  unfold scanLines
  exact scan_foldl_minIndent_const hall hex hm

theorem scanLines_cardLen (card : List Char) (lines : List (List Char)) :
    (scanLines card lines).cardLen =
      (card.length : Int) - lines.countP (fun l => decide (VariantLine card l)) := by
  unfold scanLines
  rw [scan_foldl_cardLen]

/-!
### The commenting decision
-/

theorem toggleDecision_of_all_commented {card : List Char} {lines : List (List Char)}
    (hex : ∃ l ∈ lines, NonBlank l)
    (hall : ∀ l ∈ lines, NonBlank l → CommentedLine card l) :
    toggleDecision card lines = false := by
  unfold toggleDecision scanLines
  have hlw : (lines.foldl (scanStep card) ⟨sysMaxsize, true, 0, 0, (card.length : Int)⟩).linesWithout = 0 := by
    rw [scan_foldl_linesWithout]
    simp only [Nat.zero_add]
    rw [List.countP_eq_zero]
    intro l hl
    simp only [decide_eq_true_eq]
    intro h
    exact h.2 (hall l hl h.1)
  rw [hlw]
  have hcond : ¬ (0 < (lines.foldl (scanStep card) ⟨sysMaxsize, true, 0, 0, (card.length : Int)⟩).linesCommented ∧
      (lines.foldl (scanStep card) ⟨sysMaxsize, true, 0, 0, (card.length : Int)⟩).linesCommented ≠
        (lines.foldl (scanStep card) ⟨sysMaxsize, true, 0, 0, (card.length : Int)⟩).linesCommented + 0) := by
    intro h
    exact h.2 (by omega)
  rw [if_neg hcond]
  exact scan_foldl_comment_all_commented hall hex

theorem toggleDecision_of_none_commented {card : List Char} {lines : List (List Char)}
    (hall : ∀ l ∈ lines, NonBlank l → ¬ CommentedLine card l) :
    toggleDecision card lines = true := by
  unfold toggleDecision scanLines
  have hlc : (lines.foldl (scanStep card) ⟨sysMaxsize, true, 0, 0, (card.length : Int)⟩).linesCommented = 0 := by
    rw [scan_foldl_linesCommented]
    simp only [Nat.zero_add]
    rw [List.countP_eq_zero]
    intro l hl
    simp only [decide_eq_true_eq]
    intro h
    exact hall l hl h.1 h.2
  rw [hlc]
  rw [if_neg (fun h => by omega)]
  exact scan_foldl_comment_none_commented hall rfl

theorem toggleDecision_of_mixed {card : List Char} {lines : List (List Char)}
    (hc : ∃ l ∈ lines, NonBlank l ∧ CommentedLine card l)
    (hu : ∃ l ∈ lines, NonBlank l ∧ ¬ CommentedLine card l) :
    toggleDecision card lines = true := by
  unfold toggleDecision scanLines
  have hlc : 0 < (lines.foldl (scanStep card) ⟨sysMaxsize, true, 0, 0, (card.length : Int)⟩).linesCommented := by
    rw [scan_foldl_linesCommented]
    have : 0 < lines.countP (fun l => decide (NonBlank l ∧ CommentedLine card l)) := by
      rw [List.countP_pos_iff]
      rcases hc with ⟨l, hl, h⟩
      exact ⟨l, hl, by simpa using h⟩
    omega
  have hlw : 0 < (lines.foldl (scanStep card) ⟨sysMaxsize, true, 0, 0, (card.length : Int)⟩).linesWithout := by
    rw [scan_foldl_linesWithout]
    have : 0 < lines.countP (fun l => decide (NonBlank l ∧ ¬ CommentedLine card l)) := by
      rw [List.countP_pos_iff]
      rcases hu with ⟨l, hl, h⟩
      exact ⟨l, hl, by simpa using h⟩
    omega
  rw [if_pos ⟨hlc, by omega⟩]

/-- C2: the commenting decision.  If at least one non-blank line exists and every
non-blank line is commented, the operation uncomments (`false`); if no non-blank
line is commented, it comments (`true`); in every mixed state — some but not all
non-blank lines commented, whichever side is the majority — it comments. -/
theorem comment_decision_cases (card : List Char) (lines : List (List Char)) :
    ((∃ l ∈ lines, NonBlank l) →
      (∀ l ∈ lines, NonBlank l → CommentedLine card l) →
        toggleDecision card lines = false) ∧
      ((∀ l ∈ lines, NonBlank l → ¬ CommentedLine card l) →
        toggleDecision card lines = true) ∧
      ((∃ l ∈ lines, NonBlank l ∧ CommentedLine card l) →
        (∃ l ∈ lines, NonBlank l ∧ ¬ CommentedLine card l) →
          toggleDecision card lines = true) :=
  ⟨fun hex hall => toggleDecision_of_all_commented hex hall,
    fun hall => toggleDecision_of_none_commented hall,
    fun hc hu => toggleDecision_of_mixed hc hu⟩

/-- C2 witness, with marker `"#"`: a fully commented pair of lines (one of them
indented, one of them blank) uncomments; a fully uncommented block comments; a
mixed block with a commented majority still comments. -/
theorem comment_decision_cases_witness :
    toggleDecision "#".toList ["#a".toList, "  #b".toList, [] ] = false ∧
      toggleDecision "#".toList ["a".toList, "b".toList] = true ∧
      toggleDecision "#".toList ["#a".toList, "#b".toList, "c".toList] = true := by
  refine ⟨?_, ?_, ?_⟩
  · exact (comment_decision_cases "#".toList ["#a".toList, "  #b".toList, [] ]).1
      (by decide) (by decide)
  · exact (comment_decision_cases "#".toList ["a".toList, "b".toList]).2.1 (by decide)
  · exact (comment_decision_cases "#".toList
      ["#a".toList, "#b".toList, "c".toList]).2.2 (by decide) (by decide)

/-!
### Shape of a freshly commented line
-/

theorem lstrip_append_spaces {a b : List Char} (h : ∀ c ∈ a, isPySpace c = true) :
    lstrip (a ++ b) = lstrip b := by
  induction a with
  | nil => rfl
  | cons x t ih =>
    unfold lstrip
    rw [List.cons_append, List.dropWhile_cons, if_pos (h x (List.mem_cons_self ..))]
    exact ih (fun c hc => h c (List.mem_cons_of_mem _ hc))

theorem lstrip_cons_nonspace {c : Char} {l : List Char} (h : isPySpace c = false) :
    lstrip (c :: l) = c :: l := by
  unfold lstrip
  rw [List.dropWhile_cons, if_neg (by simp [h])]

theorem lineIndent_eq_takeWhile (line : List Char) :
    lineIndent line = (line.takeWhile isPySpace).length := by
  unfold lineIndent lstrip
  have h := congrArg List.length (List.takeWhile_append_dropWhile isPySpace line)
  rw [List.length_append] at h
  omega

theorem mem_takeWhile_sat {p : Char → Bool} :
    ∀ {l : List Char} {c : Char}, c ∈ l.takeWhile p → p c = true := by
  intro l
  induction l with
  | nil => intro c h; simp at h
  | cons a t ih =>
    intro c h
    rw [List.takeWhile_cons] at h
    by_cases ha : p a
    · rw [if_pos ha] at h
      rcases List.mem_cons.mp h with hc | h'
      · subst hc; exact ha
      · exact ih h'
    · rw [if_neg ha] at h
      simp at h

theorem take_lineIndent_spaces (line : List Char) :
    ∀ c ∈ line.take (lineIndent line), isPySpace c = true := by
  rw [lineIndent_eq_takeWhile]
  have h3 : line.takeWhile isPySpace ++ line.dropWhile isPySpace = line :=
    List.takeWhile_append_dropWhile ..
  have h2 : line.take (line.takeWhile isPySpace).length = line.takeWhile isPySpace := by
    calc line.take (line.takeWhile isPySpace).length
        = (line.takeWhile isPySpace ++ line.dropWhile isPySpace).take
            (line.takeWhile isPySpace).length := by rw [h3]
      _ = line.takeWhile isPySpace := List.take_left ..
  rw [h2]
  intro c hc
  exact mem_takeWhile_sat hc

theorem take_spaces_of_le {line : List Char} {m : Nat} (h : m ≤ lineIndent line) :
    ∀ c ∈ line.take m, isPySpace c = true := by
  intro c hc
  apply take_lineIndent_spaces line
  have heq : line.take m = (line.take (lineIndent line)).take m := by
    rw [List.take_take, Nat.min_eq_left h]
  rw [heq] at hc
  exact List.take_subset _ _ hc

theorem inserted_line_lstrip {line card : List Char} {m : Nat}
    (hm : m ≤ lineIndent line) (c0 : Char) (card' : List Char) (hcard : card = c0 :: card')
    (hc0 : isPySpace c0 = false) :
    lstrip (line.take m ++ card ++ line.drop m) = card ++ line.drop m := by
  rw [List.append_assoc, lstrip_append_spaces (take_spaces_of_le hm)]
  rw [hcard, List.cons_append]
  exact lstrip_cons_nonspace hc0

theorem inserted_line_facts {line card : List Char} {m : Nat}
    (hm : m ≤ lineIndent line)
    (hcard : card ≠ []) (hc0 : isPySpace (card.headD ' ') = false) :
    NonBlank (line.take m ++ card ++ line.drop m) ∧
      StartsWith (lstrip (line.take m ++ card ++ line.drop m)) card ∧
      lineIndent (line.take m ++ card ++ line.drop m) = m := by
  obtain ⟨c0, card', hcc⟩ := List.exists_cons_of_ne_nil hcard
  have hc0' : isPySpace c0 = false := by rw [hcc] at hc0; simpa using hc0
  have hls := inserted_line_lstrip hm c0 card' hcc hc0'
  have hmlen : m ≤ line.length := Nat.le_trans hm (lineIndent_le line)
  refine ⟨?_, ?_, ?_⟩
  · unfold NonBlank
    rw [hls, hcc]
    simp
  · unfold StartsWith
    rw [hls]
    exact (List.take_left ..).symm
  · unfold lineIndent
    rw [hls]
    rw [List.length_append, List.length_append, List.length_append,
      List.length_take, List.length_drop]
    omega

theorem inserted_line_restore {line card : List Char} {m : Nat} (hm : m ≤ line.length) :
    (line.take m ++ card ++ line.drop m).take m ++
      ((line.take m ++ card ++ line.drop m).drop m).drop card.length = line := by
  have hlen : (line.take m).length = m := by rw [List.length_take]; omega
  rw [List.append_assoc, List.take_left' hlen, List.drop_left' hlen, List.drop_left]
  exact List.take_append_drop ..

/-- C4: on an all-uncommented block (marker non-empty, starting with a
non-whitespace character), the toggle inserts the marker at the shared minimum
indent column of every non-blank line, and toggling again restores the original
lines byte for byte. -/
theorem comment_uncomment_roundtrip (card : List Char) (lines : List (List Char))
    (hcard : card ≠ []) (hc0 : isPySpace (card.headD ' ') = false)
    (hunc : ∀ l ∈ lines, NonBlank l → ¬ CommentedLine card l) :
    comment_or_uncomment card lines =
        lines.map (fun l => if lstrip l = [] then l
          else l.take ((scanLines card lines).minIndent) ++ card ++
            l.drop ((scanLines card lines).minIndent)) ∧
      comment_or_uncomment card (comment_or_uncomment card lines) = lines := by
  have hd1 : toggleDecision card lines = true := toggleDecision_of_none_commented hunc
  have hpass1 : comment_or_uncomment card lines =
      lines.map (fun l => if lstrip l = [] then l
        else l.take ((scanLines card lines).minIndent) ++ card ++
          l.drop ((scanLines card lines).minIndent)) := by
    unfold comment_or_uncomment
    rw [hd1]
    apply List.map_congr_left
    intro l _
    by_cases hb : lstrip l = []
    · simp [applyToggleLine, hb]
    · simp [applyToggleLine, hb]
  refine ⟨hpass1, ?_⟩
  by_cases hex : ∃ l ∈ lines, NonBlank l
  · have hmle : ∀ l ∈ lines, NonBlank l →
        (scanLines card lines).minIndent ≤ lineIndent l :=
      fun l hl hnb => scanLines_minIndent_le hl hnb
    have hmmax : (scanLines card lines).minIndent ≤ sysMaxsize :=
      scanLines_minIndent_le_max card lines
    rw [hpass1]
    -- facts about every mapped line
    have hfact : ∀ l ∈ lines, NonBlank l →
        NonBlank (l.take ((scanLines card lines).minIndent) ++ card ++
            l.drop ((scanLines card lines).minIndent)) ∧
          StartsWith (lstrip (l.take ((scanLines card lines).minIndent) ++ card ++
            l.drop ((scanLines card lines).minIndent))) card ∧
          lineIndent (l.take ((scanLines card lines).minIndent) ++ card ++
            l.drop ((scanLines card lines).minIndent)) =
            (scanLines card lines).minIndent := by
      intro l hl hnb
      exact inserted_line_facts (hmle l hl hnb) hcard hc0
    -- the mapped list
    obtain ⟨w, hw, hwnb⟩ := hex
    have hwmem : (if lstrip w = [] then w
        else w.take ((scanLines card lines).minIndent) ++ card ++
          w.drop ((scanLines card lines).minIndent)) ∈
        lines.map (fun l => if lstrip l = [] then l
          else l.take ((scanLines card lines).minIndent) ++ card ++
            l.drop ((scanLines card lines).minIndent)) :=
      List.mem_map_of_mem _ hw
    rw [if_neg hwnb] at hwmem
    have hex2 : ∃ l' ∈ lines.map (fun l => if lstrip l = [] then l
        else l.take ((scanLines card lines).minIndent) ++ card ++
          l.drop ((scanLines card lines).minIndent)), NonBlank l' :=
      ⟨_, hwmem, (hfact w hw hwnb).1⟩
    have hall2 : ∀ l' ∈ lines.map (fun l => if lstrip l = [] then l
        else l.take ((scanLines card lines).minIndent) ++ card ++
          l.drop ((scanLines card lines).minIndent)),
        NonBlank l' → CommentedLine card l' ∧
          lineIndent l' = (scanLines card lines).minIndent ∧
          ¬ VariantLine card l' := by
      intro l' hl' hnb'
      obtain ⟨l, hl, hfl⟩ := List.mem_map.mp hl'
      by_cases hb : lstrip l = []
      · rw [if_pos hb] at hfl
        subst hfl
        exact absurd hb hnb'
      · rw [if_neg hb] at hfl
        subst hfl
        obtain ⟨h1, h2, h3⟩ := hfact l hl hb
        exact ⟨Or.inl h2, h3, fun hv => hv.2.1 h2⟩
    -- second scan
    have hd2 : toggleDecision card (lines.map (fun l => if lstrip l = [] then l
        else l.take ((scanLines card lines).minIndent) ++ card ++
          l.drop ((scanLines card lines).minIndent))) = false :=
      toggleDecision_of_all_commented hex2 (fun l' hl' hnb' => (hall2 l' hl' hnb').1)
    have hmin2 : (scanLines card (lines.map (fun l => if lstrip l = [] then l
        else l.take ((scanLines card lines).minIndent) ++ card ++
          l.drop ((scanLines card lines).minIndent)))).minIndent =
        (scanLines card lines).minIndent :=
      scanLines_minIndent_const
        (fun l' hl' hnb' => (hall2 l' hl' hnb').2.1) hex2 hmmax
    have hcl2 : (scanLines card (lines.map (fun l => if lstrip l = [] then l
        else l.take ((scanLines card lines).minIndent) ++ card ++
          l.drop ((scanLines card lines).minIndent)))).cardLen = (card.length : Int) := by
      rw [scanLines_cardLen]
      have h0 : (lines.map (fun l => if lstrip l = [] then l
          else l.take ((scanLines card lines).minIndent) ++ card ++
            l.drop ((scanLines card lines).minIndent))).countP
          (fun l => decide (VariantLine card l)) = 0 := by
        rw [List.countP_eq_zero]
        intro l' hl'
        simp only [decide_eq_true_eq]
        intro hv
        exact (hall2 l' hl' hv.1).2.2 hv
      rw [h0]
      simp
    -- second pass
    unfold comment_or_uncomment
    rw [hd2, hmin2, hcl2, List.map_map]
    have hpt : ∀ l ∈ lines,
        (applyToggleLine card ((scanLines card lines).minIndent) false ((card.length : Int)) ∘
          (fun l => if lstrip l = [] then l
            else l.take ((scanLines card lines).minIndent) ++ card ++
              l.drop ((scanLines card lines).minIndent))) l = id l := by
      intro l hl
      simp only [Function.comp_apply, id_eq]
      by_cases hb : lstrip l = []
      · rw [if_pos hb]
        unfold applyToggleLine
        rw [if_pos hb]
      · rw [if_neg hb]
        unfold applyToggleLine
        have hnb' : lstrip (l.take ((scanLines card lines).minIndent) ++ card ++
            l.drop ((scanLines card lines).minIndent)) ≠ [] :=
          (hfact l hl hb).1
        rw [if_neg hnb', if_neg (by simp : ¬ (false = true))]
        rw [Int.toNat_ofNat]
        exact inserted_line_restore
          (Nat.le_trans (hmle l hl hb) (lineIndent_le l))
    rw [List.map_congr_left hpt, List.map_id]
  · push_neg at hex
    have hids : comment_or_uncomment card lines = lines := by
      unfold comment_or_uncomment
      have hpt : ∀ l ∈ lines, applyToggleLine card ((scanLines card lines).minIndent)
          (toggleDecision card lines) ((scanLines card lines).cardLen) l = id l := by
        intro l hl
        have hb : lstrip l = [] := by
          have := hex l hl
          unfold NonBlank at this
          simpa using this
        unfold applyToggleLine
        rw [if_pos hb]
        rfl
      rw [List.map_congr_left hpt, List.map_id]
    rw [hids, hids]

/-- C4 witness: the block `["a", "  b", ""]` with marker `"#"` comments to
`["#a", "#  b", ""]` (marker at the shared minimum indent column 0 of both
non-blank lines) and toggling again restores the block. -/
theorem comment_uncomment_roundtrip_witness :
    comment_or_uncomment "#".toList ["a".toList, "  b".toList, [] ] =
        ["#a".toList, "#  b".toList, [] ] ∧
      comment_or_uncomment "#".toList (comment_or_uncomment "#".toList
        ["a".toList, "  b".toList, [] ]) = ["a".toList, "  b".toList, [] ] := by
  have h := comment_uncomment_roundtrip "#".toList ["a".toList, "  b".toList, [] ]
    (by decide) (by decide) (by decide)
  refine ⟨?_, h.2⟩
  rw [h.1]
  decide

/-- C6 counterexample: marker `"# "`, block `["#a", "#b"]`.  Both lines carry the
trailing-space-stripped variant `"#"`, so the claim predicts each loses
`len("# ") - 1 = 1` character, yielding `["a", "b"]`.  The code decrements the
shared `card_lenght` once per variant line (2 - 1 - 1 = 0) and removes 0
characters from every line, leaving the block unchanged. -/
theorem comment_variant_cumulative_counterexample :
    comment_or_uncomment ['#', ' '] [['#', 'a'], ['#', 'b']] = [['#', 'a'], ['#', 'b']] ∧
      [['#', 'a'], ['#', 'b']] ≠ [['a'], ['b']] := by
  constructor
  · decide
  · decide

/-- C6 (amended): the scan maintains a single running removal width shared by
all lines: the marker's length minus the total number of variant lines detected
(an `Int`, clamped at zero on removal).  When the decision is to uncomment, that
single width — not a per-line adjustment — is removed starting at the shared
minimum indent column of every non-blank line, exact-match lines included. -/
theorem comment_uncomment_shared_card_length (card : List Char) (lines : List (List Char)) :
    (scanLines card lines).cardLen =
        (card.length : Int) - lines.countP (fun l => decide (VariantLine card l)) ∧
      (toggleDecision card lines = false →
        comment_or_uncomment card lines = lines.map (fun l => if lstrip l = [] then l
          else l.take ((scanLines card lines).minIndent) ++
            (l.drop ((scanLines card lines).minIndent)).drop
              ((scanLines card lines).cardLen).toNat)) := by
  refine ⟨scanLines_cardLen card lines, fun hd => ?_⟩
  unfold comment_or_uncomment
  rw [hd]
  apply List.map_congr_left
  intro l _
  by_cases hb : lstrip l = []
  · simp [applyToggleLine, hb]
  · simp [applyToggleLine, hb]

/-- C6 witness for the amended claim, on the counterexample input: the shared
width is `2 - 2 = 0` and uncommenting removes 0 characters from both lines. -/
theorem comment_uncomment_shared_card_length_witness :
    (scanLines ['#', ' '] [['#', 'a'], ['#', 'b']]).cardLen = 0 ∧
      comment_or_uncomment ['#', ' '] [['#', 'a'], ['#', 'b']] =
        [['#', 'a'], ['#', 'b']] := by
  have h := comment_uncomment_shared_card_length ['#', ' '] [['#', 'a'], ['#', 'b']]
  refine ⟨by rw [h.1]; decide, ?_⟩
  rw [h.2 (by decide)]
  decide

/-!
### Map and heap lemmas
-/

theorem odLookup_odSet_self : ∀ (m : List (String × Nat)) (k : String) (r : Nat),
    odLookup (odSet m k r) k = some r := by
  intro m
  induction m with
  | nil => intro k r; simp [odSet, odLookup]
  | cons p rest ih =>
    intro k r
    unfold odSet
    by_cases hp : p.1 = k
    · rw [if_pos hp]
      unfold odLookup
      rw [if_pos rfl]
    · rw [if_neg hp]
      unfold odLookup
      rw [if_neg hp]
      exact ih k r

theorem odLookup_odSet_ne {k' k : String} (hne : k' ≠ k) :
    ∀ (m : List (String × Nat)) (r : Nat),
      odLookup (odSet m k r) k' = odLookup m k' := by
  intro m
  induction m with
  | nil =>
    intro r
    simp only [odSet, odLookup]
    rw [if_neg (show ¬ (k = k') from fun hc => hne hc.symm)]
  | cons p rest ih =>
    intro r
    obtain ⟨a, b⟩ := p
    simp only [odSet]
    by_cases hp : a = k
    · subst hp
      rw [if_pos rfl]
      simp only [odLookup]
      rw [if_neg (show ¬ (a = k') from fun hc => hne hc.symm),
        if_neg (show ¬ (a = k') from fun hc => hne hc.symm)]
    · rw [if_neg hp]
      simp only [odLookup]
      by_cases hp' : a = k'
      · simp only [if_pos hp']
      · simp only [if_neg hp']
        exact ih r

theorem odLookup_mem : ∀ {m : List (String × Nat)} {k : String} {r : Nat},
    odLookup m k = some r → (k, r) ∈ m := by
  intro m
  induction m with
  | nil => intro k r hl; simp [odLookup] at hl
  | cons p rest ih =>
    intro k r hl
    unfold odLookup at hl
    by_cases hp : p.1 = k
    · rw [if_pos hp] at hl
      injection hl with hl'
      obtain ⟨a, b⟩ := p
      simp only at hp hl'
      subst hp
      subst hl'
      exact List.mem_cons_self ..
    · rw [if_neg hp] at hl
      exact List.mem_cons_of_mem _ (ih hl)

theorem odLookup_foldl_odSet_absent {k : String} :
    ∀ (ps : List (String × Nat)) (c : List (String × Nat)),
      k ∉ ps.map Prod.fst →
        odLookup (ps.foldl (fun acc p => odSet acc p.1 p.2) c) k = odLookup c k := by
  intro ps
  induction ps with
  | nil => intro c _; rfl
  | cons p rest ih =>
    intro c hk
    rw [List.foldl_cons]
    have hk1 : p.1 ≠ k := fun hc => hk (by rw [← hc]; exact List.mem_map_of_mem _ (List.mem_cons_self ..))
    have hk2 : k ∉ rest.map Prod.fst := fun hc => hk (by
      rw [List.map_cons]
      exact List.mem_cons_of_mem _ hc)
    rw [ih (odSet c p.1 p.2) hk2]
    exact odLookup_odSet_ne (fun hc => hk1 hc.symm) c p.2

theorem odLookup_link {orig clone : ESM} {k : String} (hnd : ESM.KeysNodup orig) :
    odLookup (ESM.link orig clone).sels k =
      match odLookup orig.sels k with
      | some r => some r
      | none => odLookup clone.sels k := by
  unfold ESM.link
  obtain ⟨ps⟩ := orig
  obtain ⟨cs⟩ := clone
  unfold ESM.KeysNodup at hnd
  dsimp only at hnd ⊢
  induction ps generalizing cs with
  | nil => rfl
  | cons p rest ih =>
    rw [List.map_cons, List.nodup_cons] at hnd
    rw [List.foldl_cons]
    obtain ⟨a, b⟩ := p
    dsimp only at hnd ⊢
    by_cases hp : a = k
    · subst hp
      rw [odLookup_foldl_odSet_absent rest (odSet cs a b) hnd.1,
        odLookup_odSet_self]
      have hcons : odLookup ((a, b) :: rest) a = some b := by
        simp [odLookup]
      rw [hcons]
    · rw [ih hnd.2 (odSet cs a b)]
      have hcons : odLookup ((a, b) :: rest) k = odLookup rest k := by
        simp only [odLookup]
        rw [if_neg hp]
      rw [hcons]
      cases hor : odLookup rest k with
      | none => exact odLookup_odSet_ne (fun hc => hp hc.symm) cs b
      | some r => rfl

theorem Heap.read_append_self {α : Type} (h : Heap α) (v : List α) :
    Heap.read ⟨h.cells ++ [v]⟩ h.cells.length = v := by
  unfold Heap.read
  rw [List.getElem?_append_right (Nat.le_refl _)]
  simp

theorem Heap.read_append_left {α : Type} (h : Heap α) (v : List α) {r : Nat}
    (hr : r < h.cells.length) : Heap.read ⟨h.cells ++ [v]⟩ r = h.read r := by
  unfold Heap.read
  rw [List.getElem?_append_left hr]

theorem Heap.read_write_self {α : Type} (h : Heap α) {r : Nat}
    (hr : r < h.cells.length) (v : List α) : (h.write r v).read r = v := by
  unfold Heap.read Heap.write
  rw [List.getElem?_set_self hr]
  rfl

/-- C8: `add(k1, S1)` followed by `add(k1, S2)` leaves exactly `S2` stored (and
hence rendered) for `k1`; every other category `k2` is untouched by the second
add; and a singleton argument is auto-wrapped into `[s]`. -/
theorem extra_selection_add_replaces {α : Type} (h : Heap α) (m : ESM) (k1 k2 : String)
    (S1 S2 : List α) (s : α) (hwf : ESM.WFRefs h m) (hne : k2 ≠ k1) :
    ESM.get (ESM.add (ESM.add h m k1 S1).1 (ESM.add h m k1 S1).2 k1 S2).1
        (ESM.add (ESM.add h m k1 S1).1 (ESM.add h m k1 S1).2 k1 S2).2 k1 = S2 ∧
      ESM.get (ESM.add (ESM.add h m k1 S1).1 (ESM.add h m k1 S1).2 k1 S2).1
        (ESM.add (ESM.add h m k1 S1).1 (ESM.add h m k1 S1).2 k1 S2).2 k2 =
        ESM.get h m k2 ∧
      ESM.get (ESM.addSingle h m k1 s).1 (ESM.addSingle h m k1 s).2 k1 = [s] := by
  refine ⟨?_, ?_, ?_⟩
  · unfold ESM.get ESM.add
    dsimp only
    rw [odLookup_odSet_self]
    exact Heap.read_append_self ⟨h.cells ++ [S1]⟩ S2
  · unfold ESM.get ESM.add
    dsimp only
    rw [odLookup_odSet_ne hne, odLookup_odSet_ne hne]
    cases hl : odLookup m.sels k2 with
    | none => rfl
    | some r =>
      dsimp only
      have hr : r < h.cells.length := hwf _ (odLookup_mem hl)
      have e1 : Heap.read ⟨(h.cells ++ [S1]) ++ [S2]⟩ r = Heap.read ⟨h.cells ++ [S1]⟩ r :=
        Heap.read_append_left ⟨h.cells ++ [S1]⟩ S2
          (by simp only [List.length_append]; omega)
      have e2 : Heap.read ⟨h.cells ++ [S1]⟩ r = Heap.read h r :=
        Heap.read_append_left h S1 hr
      rw [e1, e2]
  · unfold ESM.get ESM.addSingle ESM.add
    dsimp only
    rw [odLookup_odSet_self]
    exact Heap.read_append_self h [s]

/-- C8 witness: starting from a heap holding `"checker" ↦ [(5, 6)]`, adding
`[(1, 2)]` then `[(3, 4)]` for `"find"` leaves exactly `[(3, 4)]` stored for
`"find"`, `"checker"` unchanged, and a singleton add stores `[(9, 9)]`. -/
theorem extra_selection_add_replaces_witness :
    ESM.get (ESM.add (ESM.add (⟨[[(5, 6)]]⟩ : Heap (Nat × Nat)) ⟨[("checker", 0)]⟩
          "find" [(1, 2)]).1
        (ESM.add (⟨[[(5, 6)]]⟩ : Heap (Nat × Nat)) ⟨[("checker", 0)]⟩
          "find" [(1, 2)]).2 "find" [(3, 4)]).1
      (ESM.add (ESM.add (⟨[[(5, 6)]]⟩ : Heap (Nat × Nat)) ⟨[("checker", 0)]⟩
          "find" [(1, 2)]).1
        (ESM.add (⟨[[(5, 6)]]⟩ : Heap (Nat × Nat)) ⟨[("checker", 0)]⟩
          "find" [(1, 2)]).2 "find" [(3, 4)]).2 "find" = [(3, 4)] ∧
    ESM.get (ESM.add (ESM.add (⟨[[(5, 6)]]⟩ : Heap (Nat × Nat)) ⟨[("checker", 0)]⟩
          "find" [(1, 2)]).1
        (ESM.add (⟨[[(5, 6)]]⟩ : Heap (Nat × Nat)) ⟨[("checker", 0)]⟩
          "find" [(1, 2)]).2 "find" [(3, 4)]).1
      (ESM.add (ESM.add (⟨[[(5, 6)]]⟩ : Heap (Nat × Nat)) ⟨[("checker", 0)]⟩
          "find" [(1, 2)]).1
        (ESM.add (⟨[[(5, 6)]]⟩ : Heap (Nat × Nat)) ⟨[("checker", 0)]⟩
          "find" [(1, 2)]).2 "find" [(3, 4)]).2 "checker" = [(5, 6)] ∧
    ESM.get (ESM.addSingle (⟨[[(5, 6)]]⟩ : Heap (Nat × Nat)) ⟨[("checker", 0)]⟩
        "find" (9, 9)).1
      (ESM.addSingle (⟨[[(5, 6)]]⟩ : Heap (Nat × Nat)) ⟨[("checker", 0)]⟩
        "find" (9, 9)).2 "find" = [(9, 9)] := by
  have h := extra_selection_add_replaces (⟨[[(5, 6)]]⟩ : Heap (Nat × Nat))
    ⟨[("checker", 0)]⟩ "find" "checker" [(1, 2)] [(3, 4)] (9, 9)
    (by decide) (by decide)
  refine ⟨h.1, ?_, h.2.2⟩
  rw [h.2.1]
  decide

/-- C10 counterexample: after `link` copies the `"find"` category to a clone,
`remove("find")` on the original clears the shared list object in place, so the
clone's stored selections drop from `[(1, 2)]` to `[]` — the claimed one-time
snapshot isolation does not hold for `remove`. -/
theorem link_remove_shared_mutation_counterexample :
    ESM.get (ESM.add (⟨[]⟩ : Heap (Nat × Nat)) ⟨[]⟩ "find" [(1, 2)]).1
        (ESM.link (ESM.add (⟨[]⟩ : Heap (Nat × Nat)) ⟨[]⟩ "find" [(1, 2)]).2 ⟨[]⟩)
        "find" = [(1, 2)] ∧
      ESM.get (ESM.remove (ESM.add (⟨[]⟩ : Heap (Nat × Nat)) ⟨[]⟩ "find" [(1, 2)]).1
          (ESM.add (⟨[]⟩ : Heap (Nat × Nat)) ⟨[]⟩ "find" [(1, 2)]).2 "find")
        (ESM.link (ESM.add (⟨[]⟩ : Heap (Nat × Nat)) ⟨[]⟩ "find" [(1, 2)]).2 ⟨[]⟩)
        "find" = [] ∧
      ([(1, 2)] : List (Nat × Nat)) ≠ [] := by
  refine ⟨by decide, by decide, by decide⟩

/-- C10 (amended): `link` copies list references, not snapshots.  After
linking, the clone reads the original's current contents for a linked category;
*replacing* the category on the original (an `add`, which binds a fresh list)
leaves the clone's stored selections unchanged; but *removing* it on the
original clears the shared list in place, so the clone's stored selections for
that category become empty as well. -/
theorem link_copies_refs_remove_clears_shared {α : Type} (h : Heap α) (mO mC : ESM)
    (k : String) (r : Nat) (v : List α)
    (hnd : ESM.KeysNodup mO) (hk : odLookup mO.sels k = some r)
    (hr : r < h.cells.length) :
    ESM.get h (ESM.link mO mC) k = ESM.get h mO k ∧
      ESM.get (ESM.add h mO k v).1 (ESM.link mO mC) k = ESM.get h mO k ∧
      ESM.get (ESM.remove h mO k) (ESM.link mO mC) k = [] := by
  have hlk : odLookup (ESM.link mO mC).sels k = some r := by
    rw [odLookup_link hnd, hk]
  refine ⟨?_, ?_, ?_⟩
  · unfold ESM.get
    rw [hlk, hk]
  · unfold ESM.get ESM.add
    dsimp only
    rw [hlk, hk]
    exact Heap.read_append_left h v hr
  · unfold ESM.get ESM.remove
    rw [hlk, hk]
    exact Heap.read_write_self h hr []

/-- C10 witness for the amended behaviour, on a one-category original linked
into an empty clone. -/
theorem link_copies_refs_remove_clears_shared_witness :
    ESM.get (⟨[[(1, 2)]]⟩ : Heap (Nat × Nat)) (ESM.link ⟨[("find", 0)]⟩ ⟨[]⟩)
        "find" = [(1, 2)] ∧
      ESM.get (ESM.add (⟨[[(1, 2)]]⟩ : Heap (Nat × Nat)) ⟨[("find", 0)]⟩
          "find" [(3, 4)]).1
        (ESM.link ⟨[("find", 0)]⟩ ⟨[]⟩) "find" = [(1, 2)] ∧
      ESM.get (ESM.remove (⟨[[(1, 2)]]⟩ : Heap (Nat × Nat)) ⟨[("find", 0)]⟩ "find")
        (ESM.link ⟨[("find", 0)]⟩ ⟨[]⟩) "find" = [] := by
  have h := link_copies_refs_remove_clears_shared (⟨[[(1, 2)]]⟩ : Heap (Nat × Nat))
    ⟨[("find", 0)]⟩ ⟨[]⟩ "find" 0 [(3, 4)] (by decide) (by decide) (by decide)
  refine ⟨by rw [h.1]; decide, by rw [h.2.1]; decide, h.2.2⟩

end NinjaEditor
